import Mathlib

/- Verification of the rex crash-triage engine (rex/crash.py) against its
   natural-language specification.  The Python code is shallowly embedded:
   claripy ASTs are modelled bit-by-bit, the solver oracle for a single
   address expression is modelled by its finite set of feasible values, and
   the triage / exploration routines are translated function-by-function. -/

namespace Rex

/- ### Bit-level model of claripy ASTs.
   A single-bit slice `st[bitidx]` of a register AST is either a concrete
   bit or one bit of a symbolic variable.  The claripy attribute
   `.symbolic` is a purely syntactic check: it is true exactly when the
   expression contains a symbolic leaf, and it never consults constraints. -/
inductive BVBit where
  | concrete (b : Bool)
  | symbit (v : Nat) (i : Nat)
  deriving DecidableEq

def BVBit.isSymbolic : BVBit → Bool
  | .concrete _ => false
  | .symbit _ _ => true

/- `state.se.symbolic(expr)`: syntactic symbolic check on a multi-bit AST. -/
def se_symbolic (e : List BVBit) : Bool := e.any BVBit.isSymbolic

/- Crash._symbolic_control: count bits `st[bitidx].symbolic` for
   bitidx in xrange(self.state.arch.bits). -/
def symbolic_control (arch_bits : Nat) (st : List BVBit) : Nat :=
  ((List.range arch_bits).filter
    (fun bitidx => (st.getD bitidx (BVBit.concrete false)).isSymbolic)).length

/- ### Semantics of constraints over symbolic variables (the solver model,
   used to state what "forced by the constraint set" means). -/
def evalBit (σ : Nat → Nat → Bool) : BVBit → Bool
  | .concrete b => b
  | .symbit v i => σ v i

structure Constraint where
  lhs : List BVBit
  rhs : List BVBit

def Constraint.holds (σ : Nat → Nat → Bool) (c : Constraint) : Prop :=
  c.lhs.map (evalBit σ) = c.rhs.map (evalBit σ)

def satAll (σ : Nat → Nat → Bool) (cs : List Constraint) : Prop :=
  ∀ c ∈ cs, c.holds σ

/- Modelled from the spec: a single bit is "independently attacker
   controllable" when, tested in isolation against the constraint set, both
   values remain satisfiable.  Used to compare the spec's reading of the
   Bit-Control Estimator with the source's syntactic one. -/
def specBitFree (cs : List Constraint) (b : BVBit) : Prop :=
  (∃ σ, satAll σ cs ∧ evalBit σ b = true) ∧
  (∃ σ, satAll σ cs ∧ evalBit σ b = false)

/- ### Vulnerability taxonomy (rex/vulnerability.py constants). -/
inductive Vulnerability where
  | IP_OVERWRITE
  | PARTIAL_IP_OVERWRITE
  | BP_OVERWRITE
  | PARTIAL_BP_OVERWRITE
  | WRITE_WHAT_WHERE
  | WRITE_X_WHERE
  | ARBITRARY_READ
  | NULL_DEREFERENCE
  | UNCONTROLLED_IP_OVERWRITE
  | UNCONTROLLED_WRITE
  deriving DecidableEq

/- ### Memory-access log entries (simuvex actions). -/
inductive RW where
  | read
  | write
  deriving DecidableEq

inductive ActionType where
  | mem
  | other
  deriving DecidableEq

structure Action where
  typ : ActionType
  action : RW
  addr : List BVBit
  data : List BVBit
  ins_addr : Nat
  deriving DecidableEq

/- ### Crash state as seen by Crash._triage_crash. -/
structure CrashStateModel where
  arch_bits : Nat
  ip : List BVBit
  bp : List BVBit
  prev_actions : List Action
  actions : List Action
  deriving DecidableEq

/- The symbolic-address memory actions of the previous and crashing blocks,
   in recorded order (the list built by the loop in _triage_crash). -/
def symbolic_mem_actions (st : CrashStateModel) : List Action :=
  (st.prev_actions ++ st.actions).filter
    (fun a => decide (a.typ = ActionType.mem) && se_symbolic a.addr)

/- Crash._triage_crash: returns (crash_type, violating_action). -/
def _triage_crash (st : CrashStateModel) : Option Vulnerability × Option Action :=
  if se_symbolic st.ip then
    if st.arch_bits ≤ symbolic_control st.arch_bits st.ip then
      (some Vulnerability.IP_OVERWRITE, none)
    else
      (some Vulnerability.PARTIAL_IP_OVERWRITE, none)
  else if se_symbolic st.bp then
    if st.arch_bits ≤ symbolic_control st.arch_bits st.bp then
      (some Vulnerability.BP_OVERWRITE, none)
    else
      (some Vulnerability.PARTIAL_BP_OVERWRITE, none)
  else
    match symbolic_mem_actions st with
    | [] => (none, none)
    | a :: _ =>
      match a.action with
      | RW.write =>
        (some (if se_symbolic a.data then Vulnerability.WRITE_WHAT_WHERE
               else Vulnerability.WRITE_X_WHERE), some a)
      | RW.read => (some Vulnerability.ARBITRARY_READ, some a)

/- Crash.exploitable / Crash.explorable membership lists. -/
def exploitables : List Vulnerability :=
  [Vulnerability.IP_OVERWRITE, Vulnerability.PARTIAL_IP_OVERWRITE,
   Vulnerability.BP_OVERWRITE, Vulnerability.PARTIAL_BP_OVERWRITE,
   Vulnerability.WRITE_WHAT_WHERE, Vulnerability.WRITE_X_WHERE]

def explorables : List Vulnerability :=
  [Vulnerability.ARBITRARY_READ, Vulnerability.WRITE_WHAT_WHERE,
   Vulnerability.WRITE_X_WHERE]

/- ### Error taxonomy of the engine. -/
inductive RexError where
  | cannotExploit (msg : String)
  | cannotExplore (msg : String)
  deriving DecidableEq

/- ### Crash.__init__, restricted to the explore-step bookkeeping and the
   final classification: the `explore_steps > 10` guard fires before any
   tracing or classification is attempted (crash.py lines 50-53 versus 154). -/
structure CrashResult where
  explore_steps : Nat
  crash_type : Option Vulnerability
  violating_action : Option Action
  deriving DecidableEq

def crash_init (explore_steps : Nat) (st : CrashStateModel) : Except RexError CrashResult :=
  if explore_steps > 10 then
    Except.error (RexError.cannotExploit "Too many steps taken during crash exploration")
  else
    Except.ok ⟨explore_steps, (_triage_crash st).1, (_triage_crash st).2⟩

/- The recursive re-entry of _explore_arbitrary_read/_explore_arbitrary_write:
   self.__init__(..., explore_steps=self.explore_steps + 1, ...). -/
def explore_recurse (c : CrashResult) (st : CrashStateModel) : Except RexError CrashResult :=
  crash_init (c.explore_steps + 1) st

/- The exploration loop: round 0 builds the initial crash, each later round
   re-initializes from the fresh crash state of the external engine. -/
def explore_rounds (f : Nat → CrashStateModel) : Nat → Except RexError CrashResult
  | 0 => crash_init 0 (f 0)
  | n + 1 =>
    match explore_rounds f n with
    | Except.ok c => explore_recurse c (f (n + 1))
    | Except.error e => Except.error e

/- ### The satisfiability oracle for the violating address expression.
   `feasible` is the set of values of `violating_action.addr` permitted by
   the live constraint set; `state.se.satisfiable(extra_constraints=(addr == c,))`
   is membership, and `state.se.min` / `state.se.max` are its extrema. -/
def satisfiable (feasible : Finset Nat) (c : Nat) : Bool := c ∈ feasible

def se_min (feasible : Finset Nat) : Nat := (Finset.min feasible).untop' 0

def se_max (feasible : Finset Nat) : Nat := (Finset.max feasible).unbot' 0

/- ### Crash._segment: adjacency-merge of individually flagged addresses.
   The Python dict, whose keys are inserted in strictly increasing order,
   is modelled as the association list in insertion order. -/
def segmentLoop (current_w_start current_w_end : Nat) : List Nat → List (Nat × Nat)
  | [] => [(current_w_start, current_w_end - current_w_start)]
  | w :: rest =>
    if current_w_end < w then
      (current_w_start, current_w_end - current_w_start) ::
        segmentLoop w (w + 1) rest
    else
      segmentLoop current_w_start (max current_w_end (w + 1)) rest

def segmentStart : List Nat → List (Nat × Nat)
  | [] => []
  | w :: rest => segmentLoop w (w + 1) rest

/- `sorted(memory_writes)` followed by the merging loop.  On lists of
   naturals every correct sort yields the same output, so Python's stable
   sort is modelled by insertion sort. -/
def _segment (memory_writes : List Nat) : List (Nat × Nat) :=
  segmentStart (List.insertionSort (· ≤ ·) memory_writes)

/- Addresses covered by a list of (start, length) segments. -/
def coveredBy (segments : List (Nat × Nat)) (a : Nat) : Bool :=
  segments.any (fun p => decide (p.1 ≤ a) && decide (a < p.1 + p.2))

/- ### Candidate search of the exploration planner. -/

/- Python `range(lo, hi, step)` for step > 0. -/
def rangeStep (lo hi step : Nat) : List Nat :=
  (List.range ((hi - lo + (step - 1)) / step)).map (fun k => lo + k * step)

/- The single-loop walk of _explore_arbitrary_read: first candidate whose
   equality constraint is satisfiable wins. -/
def firstSat (feasible : Finset Nat) : List Nat → Option Nat
  | [] => none
  | addr :: rest => if addr ∈ feasible then some addr else firstSat feasible rest

/- Crash._explore_arbitrary_read: the returned value is the address whose
   equality constraint is committed (None models CannotExploit). -/
def explore_arbitrary_read (symbolic_mem : List (Nat × Nat))
    (min_addr max_addr : Nat) (feasible : Finset Nat) : Option Nat :=
  let largest_regions :=
    (List.insertionSort (fun p q : Nat × Nat => q.2 ≤ p.2) symbolic_mem).map Prod.fst
  let min_read := se_min feasible
  let max_read := se_max feasible
  let regions := largest_regions.filter
    (fun x => decide (min_read ≤ x) && decide (x ≤ max_read))
  let pages := (rangeStep min_addr max_addr 0x1000).filter
    (fun x => decide (min_read ≤ x) && decide (x ≤ max_read))
  firstSat feasible (regions ++ pages)

/- ### Loaded-image segments, for the arbitrary-write search. -/
structure Seg where
  min_addr : Nat
  max_addr : Nat
  is_writable : Bool
  deriving DecidableEq

/- Writable segments, prefiltered to those overlapping [min_write, max_write]
   (the two `filter` calls of _explore_arbitrary_write). -/
def write_segs (segments : List Seg) (min_write max_write : Nat) : List Seg :=
  (segments.filter (fun s => s.is_writable)).filter
    (fun s => decide (s.min_addr ≤ max_write) && decide (min_write ≤ s.max_addr))

/- The inner page loop of _explore_arbitrary_write.  `break` on a
   satisfiable page leaves `constraint` set and exits only this loop;
   otherwise each iteration resets `constraint` to None. -/
def seg_page_walk (feasible : Finset Nat) (pages : List Nat)
    (constraint : Option Nat) : Option Nat :=
  match pages with
  | [] => constraint
  | page :: rest =>
    if page ∈ feasible then some page else seg_page_walk feasible rest none

/- Crash._explore_arbitrary_write: the outer segment loop threads
   `constraint` through every segment because the inner `break` does not
   leave the outer loop.  None models the CannotExploit raise. -/
def explore_arbitrary_write (segments : List Seg) (feasible : Finset Nat) : Option Nat :=
  let min_write := se_min feasible
  let max_write := se_max feasible
  let segs := write_segs segments min_write max_write
  segs.foldl
    (fun constraint seg =>
      seg_page_walk feasible (rangeStep seg.min_addr seg.max_addr 0x1000) constraint)
    none

/- The full candidate walk, in segment order then page order, that the spec
   describes for the arbitrary-write search. -/
def write_candidates (segments : List Seg) (feasible : Finset Nat) : List Nat :=
  (write_segs segments (se_min feasible) (se_max feasible)).flatMap
    (fun seg => rangeStep seg.min_addr seg.max_addr 0x1000)

/- ### Crash.point_to_flag / Crash._get_state_pointing_to_flag. -/
def cgc_magic_page_addr : Nat := 0x4347c000

/- The feasible values of the violating address once both flag-page
   constraints have been added to the copied state. -/
def flag_range_filter (feasible : Finset Nat) : Finset Nat :=
  feasible.filter
    (fun a => cgc_magic_page_addr ≤ a ∧ a < cgc_magic_page_addr + 0x1000 - 4)

def _get_state_pointing_to_flag (feasible : Finset Nat) : Except RexError (Finset Nat) :=
  if (flag_range_filter feasible).Nonempty then
    Except.ok (flag_range_filter feasible)
  else
    Except.error (RexError.cannotExploit "unable to point arbitrary-read at the flag page")

/- Crash.point_to_flag: the crash-type guard, then the single-shot
   constraining; the serialized testcase is determined by the returned
   constrained state, and no recursive round is started. -/
def point_to_flag (crash_type : Option Vulnerability) (feasible : Finset Nat) :
    Except RexError (Finset Nat) :=
  if crash_type = some Vulnerability.ARBITRARY_READ then
    _get_state_pointing_to_flag feasible
  else
    Except.error (RexError.cannotExploit "only arbitrary-reads can be exploited this way")

/- ### Crash.quick_triage, pc-mapped-and-executable branch.
   One instruction is executed concretely; its access log is a list of
   actions with already-concretized targets (`start_state.se.any_int(a.addr)`).
   The byte-level permission lookup either raises SimMemoryError (unmapped),
   yields a symbolic permission AST, or yields concrete permission bits. -/
structure QAction where
  typ : ActionType
  action : RW
  target : Nat
  deriving DecidableEq

inductive PermLookup where
  | unmapped
  | symbolicPerms
  | mapped (bits : Nat)
  deriving DecidableEq

/- The verdict is a vulnerability kind or the sentinel string 'unknown'. -/
inductive QuickVerdict where
  | vuln (v : Vulnerability)
  | unknown
  deriving DecidableEq

/- The scan over `next_pth.actions` with the running `posit` variable. -/
def quick_scan_loop (perms : Nat → PermLookup) (acts : List QAction)
    (posit : Option Vulnerability) : QuickVerdict :=
  match acts with
  | [] =>
    match posit with
    | none => QuickVerdict.unknown
    | some v => QuickVerdict.vuln v
  | a :: rest =>
    if a.typ = ActionType.mem then
      if a.target < 0x1000 then
        QuickVerdict.vuln Vulnerability.NULL_DEREFERENCE
      else
        match a.action with
        | RW.write =>
          if a.target &&& 0xfff00000 = 0 then
            QuickVerdict.vuln Vulnerability.UNCONTROLLED_WRITE
          else
            match perms a.target with
            | PermLookup.mapped bits =>
              if bits &&& 2 ≠ 2 then
                QuickVerdict.vuln Vulnerability.UNCONTROLLED_WRITE
              else
                quick_scan_loop perms rest (some Vulnerability.WRITE_WHAT_WHERE)
            | PermLookup.symbolicPerms =>
              quick_scan_loop perms rest (some Vulnerability.WRITE_WHAT_WHERE)
            | PermLookup.unmapped =>
              quick_scan_loop perms rest (some Vulnerability.WRITE_WHAT_WHERE)
        | RW.read => quick_scan_loop perms rest (some Vulnerability.ARBITRARY_READ)
    else
      quick_scan_loop perms rest posit

def quick_scan (perms : Nat → PermLookup) (acts : List QAction) : QuickVerdict :=
  quick_scan_loop perms acts none

/- Modelled from the spec: claim C8 reads quick triage as "the last memory
   access decides the verdict", with an unmapped write target also counted
   as uncontrolled.  Defined only to be compared against `quick_scan`. -/
def quick_scan_claim (perms : Nat → PermLookup) (acts : List QAction) : QuickVerdict :=
  match (acts.filter (fun a => decide (a.typ = ActionType.mem))).getLast? with
  | none => QuickVerdict.unknown
  | some a =>
    if a.target < 0x1000 then
      QuickVerdict.vuln Vulnerability.NULL_DEREFERENCE
    else
      match a.action with
      | RW.write =>
        if a.target &&& 0xfff00000 = 0 then
          QuickVerdict.vuln Vulnerability.UNCONTROLLED_WRITE
        else
          match perms a.target with
          | PermLookup.mapped bits =>
            if bits &&& 2 ≠ 2 then
              QuickVerdict.vuln Vulnerability.UNCONTROLLED_WRITE
            else
              QuickVerdict.vuln Vulnerability.WRITE_WHAT_WHERE
          | PermLookup.symbolicPerms => QuickVerdict.vuln Vulnerability.WRITE_WHAT_WHERE
          | PermLookup.unmapped => QuickVerdict.vuln Vulnerability.UNCONTROLLED_WRITE
      | RW.read => QuickVerdict.vuln Vulnerability.ARBITRARY_READ

/- The memory actions among the logged actions. -/
def mem_actions (acts : List QAction) : List QAction :=
  acts.filter (fun a => decide (a.typ = ActionType.mem))

/- A memory action on which the scan returns immediately: a target below
   0x1000, or a write at a suspiciously small or read-only mapped target. -/
def early_trigger (perms : Nat → PermLookup) (a : QAction) : Bool :=
  decide (a.target < 0x1000) ||
    (match a.action with
     | RW.write =>
       decide (a.target &&& 0xfff00000 = 0) ||
         (match perms a.target with
          | PermLookup.mapped bits => decide (bits &&& 2 ≠ 2)
          | PermLookup.symbolicPerms => false
          | PermLookup.unmapped => false)
     | RW.read => false)

def early_verdict (a : QAction) : QuickVerdict :=
  if a.target < 0x1000 then QuickVerdict.vuln Vulnerability.NULL_DEREFERENCE
  else QuickVerdict.vuln Vulnerability.UNCONTROLLED_WRITE

/- The verdict contributed by a non-returning access: reads and writes set
   `posit`, so the final verdict tracks the last such access. -/
def action_verdict (a : QAction) : QuickVerdict :=
  match a.action with
  | RW.write => QuickVerdict.vuln Vulnerability.WRITE_WHAT_WHERE
  | RW.read => QuickVerdict.vuln Vulnerability.ARBITRARY_READ

/- "The last access decides": the verdict of the last access of the list,
   or the supplied default when the list is empty. -/
def last_decides (posit : QuickVerdict) (l : List QAction) : QuickVerdict :=
  match l.getLast? with
  | none => posit
  | some a => action_verdict a

/- ### Concrete inputs used by the claim instances. -/

/- C2: a 32-bit instruction pointer built from the 32 bits of one stdin
   variable, constrained by the live constraint set to equal 0x41414141. -/
def cex_ip : List BVBit := (List.range 32).map (fun i => BVBit.symbit 0 i)

def cex_cs : List Constraint :=
  [⟨cex_ip, (List.range 32).map (fun i => BVBit.concrete ((0x41414141 : Nat).testBit i))⟩]

/- C5 scenario: concrete IP/BP, one logged write to a symbolic address with
   concrete data 0x41414141. -/
def scenario_write : Action :=
  ⟨ActionType.mem, RW.write, [BVBit.symbit 1 0],
   (List.range 32).map (fun i => BVBit.concrete ((0x41414141 : Nat).testBit i)),
   0x8048000⟩

def scenario_state : CrashStateModel :=
  ⟨32, List.replicate 32 (BVBit.concrete false), List.replicate 32 (BVBit.concrete false),
   [], [scenario_write]⟩

/- A crash state with a one-bit fully symbolic instruction pointer. -/
def ip_sym_state : CrashStateModel :=
  ⟨1, [BVBit.symbit 0 0], [BVBit.concrete false], [], []⟩

/- A crash state with everything concrete and no actions. -/
def quiet_state : CrashStateModel :=
  ⟨1, [BVBit.concrete false], [BVBit.concrete false], [], []⟩

/- C1: two writable segments overlapping the feasible range of the
   violating write address; only a page of the first is satisfiable. -/
def C1_segs : List Seg := [⟨0x1000, 0x2000, true⟩, ⟨0x5000, 0x6000, true⟩]

def C1_feasible : Finset Nat := {0x1000, 0x5800}

/- C8: one instruction whose first memory access is a read at 0x500 and
   whose last is a write at a mapped, writable address. -/
def C8_perms : Nat → PermLookup :=
  fun a => if a = 0x48000000 then PermLookup.mapped 7 else PermLookup.unmapped

def C8_acts : List QAction :=
  [⟨ActionType.mem, RW.read, 0x500⟩, ⟨ActionType.mem, RW.write, 0x48000000⟩]

/- ### Helper lemmas. -/

theorem symbolic_control_le (n : Nat) (st : List BVBit) : symbolic_control n st ≤ n := by
  calc symbolic_control n st ≤ (List.range n).length := List.length_filter_le _ _
    _ = n := List.length_range n

theorem mem_feasible_bounds {f : Finset Nat} {a : Nat} (ha : a ∈ f) :
    se_min f ≤ a ∧ a ≤ se_max f := by
  have hne : f.Nonempty := ⟨a, ha⟩
  constructor
  · have h2 : se_min f = f.min' hne := by
      unfold se_min
      rw [← Finset.coe_min' hne]
      rfl
    rw [h2]
    exact Finset.min'_le f a ha
  · have h2 : se_max f = f.max' hne := by
      unfold se_max
      rw [← Finset.coe_max' hne]
      rfl
    rw [h2]
    exact Finset.le_max' f a ha

theorem firstSat_mem (f : Finset Nat) :
    ∀ (l : List Nat) (r : Nat), firstSat f l = some r → r ∈ f := by
  intro l
  induction l with
  | nil => intro r h; simp [firstSat] at h
  | cons x xs ih =>
    intro r h
    by_cases hx : x ∈ f
    · rw [firstSat, if_pos hx] at h
      injection h with h2
      rw [← h2]
      exact hx
    · rw [firstSat, if_neg hx] at h
      exact ih r h

theorem seg_page_walk_mem (f : Finset Nat) :
    ∀ (pages : List Nat) (acc : Option Nat) (r : Nat),
      seg_page_walk f pages acc = some r → r ∈ f ∨ acc = some r := by
  intro pages
  induction pages with
  | nil =>
    intro acc r h
    right
    rw [seg_page_walk] at h
    exact h
  | cons p rest ih =>
    intro acc r h
    by_cases hp : p ∈ f
    · rw [seg_page_walk, if_pos hp] at h
      injection h with h2
      left
      rw [← h2]
      exact hp
    · rw [seg_page_walk, if_neg hp] at h
      rcases ih none r h with hf | hno
      · left; exact hf
      · simp at hno

theorem explore_write_fold_mem (f : Finset Nat) :
    ∀ (segs : List Seg) (acc : Option Nat) (r : Nat),
      segs.foldl
        (fun constraint seg =>
          seg_page_walk f (rangeStep seg.min_addr seg.max_addr 0x1000) constraint)
        acc = some r →
      r ∈ f ∨ acc = some r := by
  intro segs
  induction segs with
  | nil => intro acc r h; right; exact h
  | cons s ss ih =>
    intro acc r h
    rw [List.foldl_cons] at h
    rcases ih _ r h with hf | hacc
    · left; exact hf
    · rcases seg_page_walk_mem f _ acc r hacc with hf | h2
      · left; exact hf
      · right; exact h2

/- ### Claim theorems. -/

/-- C1: the arbitrary-write candidate search is claimed to accept the first
satisfiable page of the segments-in-order × pages-ascending walk and to fail
only when no candidate is satisfiable.  The code's inner `break` leaves only
the page loop, so a later overlapping segment with no satisfiable page resets
the found constraint and the search raises CannotExploit (modelled as `none`)
even though the first walked candidate 0x1000 is satisfiable. -/
theorem C1_write_walk_missing_outer_break :
    explore_arbitrary_write C1_segs C1_feasible = none ∧
    satisfiable C1_feasible 0x1000 = true ∧
    firstSat C1_feasible (write_candidates C1_segs C1_feasible) = some 0x1000 := by
  decide

/-- C4: whenever the instruction pointer is symbolic, classification is
IP_OVERWRITE exactly when the bit-control count equals the register width and
PARTIAL_IP_OVERWRITE otherwise, and the result is always one of these two
kinds regardless of the recorded memory actions. -/
theorem C4_symbolic_ip_classification (st : CrashStateModel)
    (h : se_symbolic st.ip = true) :
    (_triage_crash st).1 =
      some (if symbolic_control st.arch_bits st.ip = st.arch_bits
            then Vulnerability.IP_OVERWRITE
            else Vulnerability.PARTIAL_IP_OVERWRITE) ∧
    ((_triage_crash st).1 = some Vulnerability.IP_OVERWRITE ∨
     (_triage_crash st).1 = some Vulnerability.PARTIAL_IP_OVERWRITE) := by
  have hle := symbolic_control_le st.arch_bits st.ip
  constructor
  · by_cases hc : st.arch_bits ≤ symbolic_control st.arch_bits st.ip
    · have heq : symbolic_control st.arch_bits st.ip = st.arch_bits :=
        Nat.le_antisymm hle hc
      simp [_triage_crash, h, hc, heq]
    · have hne : symbolic_control st.arch_bits st.ip ≠ st.arch_bits := by omega
      simp [_triage_crash, h, hc, hne]
  · by_cases hc : st.arch_bits ≤ symbolic_control st.arch_bits st.ip
    · left; simp [_triage_crash, h, hc]
    · right; simp [_triage_crash, h, hc]

theorem C4_symbolic_ip_classification_witness :
    (_triage_crash ip_sym_state).1 = some Vulnerability.IP_OVERWRITE ∨
    (_triage_crash ip_sym_state).1 = some Vulnerability.PARTIAL_IP_OVERWRITE :=
  (C4_symbolic_ip_classification ip_sym_state (by decide)).2

/-- C6: each recursive exploration round raises the step count by exactly 1
(round n carries step count n), every round with step count at most 10 passes
the bound check and reaches classification, and the 11th recursive attempt
fails with the step-bound CannotExploit for every crash state, before any
classification is consulted. -/
theorem C6_explore_step_bound (f : Nat → CrashStateModel) :
    (∀ n, n ≤ 10 → explore_rounds f n =
        Except.ok ⟨n, (_triage_crash (f n)).1, (_triage_crash (f n)).2⟩) ∧
    (∀ st, crash_init 11 st =
        Except.error (RexError.cannotExploit "Too many steps taken during crash exploration")) ∧
    explore_rounds f 11 =
      Except.error (RexError.cannotExploit "Too many steps taken during crash exploration") := by
  have hok : ∀ n, n ≤ 10 → explore_rounds f n =
      Except.ok ⟨n, (_triage_crash (f n)).1, (_triage_crash (f n)).2⟩ := by
    intro n
    induction n with
    | zero => intro _; simp [explore_rounds, crash_init]
    | succ k ih =>
      intro hk
      rw [explore_rounds, ih (by omega)]
      simp only [explore_recurse, crash_init]
      rw [if_neg (by omega)]
  refine ⟨hok, ?_, ?_⟩
  · intro st
    simp [crash_init]
  · rw [explore_rounds, hok 10 (by omega)]
    simp only [explore_recurse, crash_init]
    rw [if_pos (by omega)]

theorem C6_explore_step_bound_witness :
    explore_rounds (fun _ => quiet_state) 10 =
      Except.ok ⟨10, (_triage_crash quiet_state).1, (_triage_crash quiet_state).2⟩ ∧
    explore_rounds (fun _ => quiet_state) 11 =
      Except.error (RexError.cannotExploit "Too many steps taken during crash exploration") :=
  ⟨(C6_explore_step_bound (fun _ => quiet_state)).1 10 (by omega),
   (C6_explore_step_bound (fun _ => quiet_state)).2.2⟩

/-- C7: every redirection address accepted by the arbitrary-read or the
arbitrary-write candidate search lies within the closed interval [min, max]
that the satisfiability oracle reports for the violating address expression:
an accepted candidate is satisfiable, hence a feasible value of the address. -/
theorem C7_candidates_in_feasible_range (feasible : Finset Nat) :
    (∀ (symbolic_mem : List (Nat × Nat)) (min_addr max_addr a : Nat),
        explore_arbitrary_read symbolic_mem min_addr max_addr feasible = some a →
        se_min feasible ≤ a ∧ a ≤ se_max feasible) ∧
    (∀ (segments : List Seg) (a : Nat),
        explore_arbitrary_write segments feasible = some a →
        se_min feasible ≤ a ∧ a ≤ se_max feasible) := by
  constructor
  · intro sm mn mx a ha
    simp only [explore_arbitrary_read] at ha
    exact mem_feasible_bounds (firstSat_mem feasible _ a ha)
  · intro segs a ha
    simp only [explore_arbitrary_write] at ha
    rcases explore_write_fold_mem feasible _ none a ha with hf | hno
    · exact mem_feasible_bounds hf
    · simp at hno

theorem C7_candidates_in_feasible_range_witness :
    se_min ({0x2000} : Finset Nat) ≤ 0x2000 ∧
    (0x2000 : Nat) ≤ se_max ({0x2000} : Finset Nat) :=
  (C7_candidates_in_feasible_range ({0x2000} : Finset Nat)).2
    [⟨0x1000, 0x3000, true⟩] 0x2000 (by decide)

theorem range_map_getD {α : Type} (f : Nat → α) (d : α) {i n : Nat} (h : i < n) :
    ((List.range n).map f).getD i d = f i := by
  rw [List.getD_eq_getElem?_getD, List.getElem?_map, List.getElem?_range h]
  rfl

theorem cex_forced (σ : Nat → Nat → Bool) (hσ : satAll σ cex_cs) {i : Nat} (hi : i < 32) :
    σ 0 i = (0x41414141 : Nat).testBit i := by
  have h := hσ _ (List.mem_singleton_self _)
  simp only [Constraint.holds, cex_ip, List.map_map] at h
  have h2 := congrArg (fun l => l.getD i false) h
  simp only at h2
  rw [range_map_getD _ _ hi, range_map_getD _ _ hi] at h2
  simpa [Function.comp, evalBit] using h2

theorem symbolic_control_eq_filter (st : List BVBit) :
    symbolic_control st.length st = (st.filter BVBit.isSymbolic).length := by
  induction st with
  | nil => rfl
  | cons b t ih =>
    unfold symbolic_control at ih ⊢
    rw [List.length_cons, List.range_succ_eq_map]
    simp only [List.filter_cons, List.filter_map, Function.comp_def,
      List.getD_cons_zero, List.getD_cons_succ, List.length_map]
    by_cases hb : b.isSymbolic
    · simp [hb]
      simpa [List.getD_eq_getElem?_getD] using ih
    · simp [hb]
      simpa [List.getD_eq_getElem?_getD] using ih

/-- C2 counterexample: the Bit-Control Estimator is claimed to count only
bits not forced to a fixed value by the current constraint set, so an
instruction pointer constrained equal to the concrete value 0x41414141
should yield count 0.  The code tests `st[bitidx].symbolic`, a syntactic
check, and yields 32: the constraint set is satisfiable, every one of the 32
bits is forced, yet the count is non-zero. -/
theorem C2_control_count_counterexample :
    (∃ σ, satAll σ cex_cs) ∧
    (∀ i, i < 32 → ¬ specBitFree cex_cs (BVBit.symbit 0 i)) ∧
    symbolic_control 32 cex_ip ≠ 0 := by
  refine ⟨⟨fun _ i => (0x41414141 : Nat).testBit i, ?_⟩, ?_, by decide⟩
  · intro c hc
    simp only [cex_cs, List.mem_singleton] at hc
    subst hc
    simp [Constraint.holds, cex_ip, List.map_map, Function.comp, evalBit]
  · intro i hi hfree
    obtain ⟨⟨σt, hσt, het⟩, ⟨σf, hσf, hef⟩⟩ := hfree
    have ht : σt 0 i = (0x41414141 : Nat).testBit i := cex_forced σt hσt hi
    have hf : σf 0 i = (0x41414141 : Nat).testBit i := cex_forced σf hσf hi
    simp only [evalBit] at het hef
    rw [ht] at het
    rw [hf] at hef
    rw [het] at hef
    cases hef

/-- C2 amended: the Bit-Control Estimator counts the bit indices 0..W-1
whose single-bit slice is syntactically symbolic (contains a symbolic
variable), independent of the constraint set; a syntactically concrete value
yields 0 and a value all of whose bits are symbolic-variable bits yields W,
even when the constraints force the value. -/
theorem C2_bit_control_syntactic (W : Nat) (st : List BVBit) (hlen : st.length = W) :
    symbolic_control W st = (st.filter BVBit.isSymbolic).length ∧
    ((∀ b ∈ st, b.isSymbolic = false) → symbolic_control W st = 0) ∧
    ((∀ b ∈ st, b.isSymbolic = true) → symbolic_control W st = W) := by
  subst hlen
  refine ⟨symbolic_control_eq_filter st, ?_, ?_⟩
  · intro hall
    rw [symbolic_control_eq_filter st]
    have hnil : st.filter BVBit.isSymbolic = [] :=
      List.filter_eq_nil_iff.mpr (fun b hb => by simp [hall b hb])
    rw [hnil]
    rfl
  · intro hall
    rw [symbolic_control_eq_filter st]
    have hself : st.filter BVBit.isSymbolic = st := List.filter_eq_self.mpr hall
    rw [hself]

theorem C2_bit_control_syntactic_witness :
    symbolic_control 2 [BVBit.symbit 0 0, BVBit.concrete true] =
      ([BVBit.symbit 0 0, BVBit.concrete true].filter BVBit.isSymbolic).length :=
  (C2_bit_control_syntactic 2 [BVBit.symbit 0 0, BVBit.concrete true] rfl).1

/-- C5: with concrete instruction and base pointers, the classifier takes
the first memory access with symbolic target among the previous block's and
the crashing block's actions in recorded order: a write with symbolic data
gives WRITE_WHAT_WHERE, a write with concrete data WRITE_X_WHERE, a read
ARBITRARY_READ, recording that access as the violating action; with no such
access the classification stays none.  The scenario with one write to a
symbolic address with concrete data 0x41414141 yields WRITE_X_WHERE. -/
theorem C5_first_symbolic_action (st : CrashStateModel)
    (hip : se_symbolic st.ip = false) (hbp : se_symbolic st.bp = false) :
    (symbolic_mem_actions st = [] → _triage_crash st = (none, none)) ∧
    (∀ a l, symbolic_mem_actions st = a :: l →
        _triage_crash st =
          (some (match a.action with
                 | RW.write =>
                   if se_symbolic a.data then Vulnerability.WRITE_WHAT_WHERE
                   else Vulnerability.WRITE_X_WHERE
                 | RW.read => Vulnerability.ARBITRARY_READ), some a)) ∧
    _triage_crash scenario_state = (some Vulnerability.WRITE_X_WHERE, some scenario_write) := by
  refine ⟨?_, ?_, by decide⟩
  · intro hnil
    simp [_triage_crash, hip, hbp, hnil]
  · intro a l hcons
    cases ha : a.action with
    | read => simp [_triage_crash, hip, hbp, hcons, ha]
    | write => simp [_triage_crash, hip, hbp, hcons, ha]

theorem C5_first_symbolic_action_witness :
    _triage_crash scenario_state = (some Vulnerability.WRITE_X_WHERE, some scenario_write) :=
  (C5_first_symbolic_action scenario_state (by decide) (by decide)).2.2

/-- C9: flag-pointing rejects every classification other than ARBITRARY_READ
with CannotExploit; for an ARBITRARY_READ it succeeds exactly when the
violating address can be constrained into the fixed flag page range, in
which case the serialized state is the one constrained into that range (and
no further exploration round is started); otherwise it fails with
CannotExploit. -/
theorem C9_point_to_flag_single_shot (ct : Option Vulnerability) (feasible : Finset Nat) :
    (ct ≠ some Vulnerability.ARBITRARY_READ →
      point_to_flag ct feasible =
        Except.error (RexError.cannotExploit "only arbitrary-reads can be exploited this way")) ∧
    ((flag_range_filter feasible).Nonempty →
      point_to_flag (some Vulnerability.ARBITRARY_READ) feasible =
        Except.ok (flag_range_filter feasible)) ∧
    (¬ (flag_range_filter feasible).Nonempty →
      point_to_flag (some Vulnerability.ARBITRARY_READ) feasible =
        Except.error (RexError.cannotExploit "unable to point arbitrary-read at the flag page")) ∧
    (∀ S, point_to_flag ct feasible = Except.ok S →
      ∀ a ∈ S, cgc_magic_page_addr ≤ a ∧ a < cgc_magic_page_addr + 0x1000 - 4) := by
  refine ⟨?_, ?_, ?_, ?_⟩
  · intro hne
    rw [point_to_flag, if_neg hne]
  · intro hsat
    rw [point_to_flag, if_pos rfl, _get_state_pointing_to_flag, if_pos hsat]
  · intro hunsat
    rw [point_to_flag, if_pos rfl, _get_state_pointing_to_flag, if_neg hunsat]
  · intro S hS a haS
    by_cases hct : ct = some Vulnerability.ARBITRARY_READ
    · subst hct
      rw [point_to_flag, if_pos rfl, _get_state_pointing_to_flag] at hS
      by_cases hsat : (flag_range_filter feasible).Nonempty
      · rw [if_pos hsat] at hS
        injection hS with hS2
        rw [← hS2] at haS
        exact (Finset.mem_filter.mp haS).2
      · rw [if_neg hsat] at hS
        simp at hS
    · rw [point_to_flag, if_neg hct] at hS
      simp at hS

theorem C9_point_to_flag_single_shot_witness :
    point_to_flag (some Vulnerability.ARBITRARY_READ) ({0x4347c000} : Finset Nat) =
      Except.ok (flag_range_filter ({0x4347c000} : Finset Nat)) :=
  (C9_point_to_flag_single_shot (some Vulnerability.ARBITRARY_READ) {0x4347c000}).2.1
    (by decide)

/-- C10: after classification, the recorded violating action is non-None
exactly when the crash type is one of WRITE_WHAT_WHERE, WRITE_X_WHERE or
ARBITRARY_READ (the explorable set); the IP/BP overwrite kinds and the
unclassified case leave it None, so an exploitable classification alone
does not guarantee a violating action. -/
theorem C10_violating_action_iff_explorable :
    (∀ st : CrashStateModel,
        (_triage_crash st).2 ≠ none ↔
          ∃ v, (_triage_crash st).1 = some v ∧ v ∈ explorables) ∧
    (∃ st : CrashStateModel,
        (∃ v, (_triage_crash st).1 = some v ∧ v ∈ exploitables) ∧
        (_triage_crash st).2 = none) := by
  constructor
  · intro st
    unfold _triage_crash
    by_cases h1 : se_symbolic st.ip
    · by_cases hc1 : st.arch_bits ≤ symbolic_control st.arch_bits st.ip
      · simp [h1, hc1, explorables]
      · simp [h1, hc1, explorables]
    · by_cases h2 : se_symbolic st.bp
      · by_cases hc2 : st.arch_bits ≤ symbolic_control st.arch_bits st.bp
        · simp [h1, h2, hc2, explorables]
        · simp [h1, h2, hc2, explorables]
      · rcases hma : symbolic_mem_actions st with _ | ⟨a, rest⟩
        · simp [h1, h2, hma, explorables]
        · cases haa : a.action with
          | read => simp [h1, h2, hma, haa, explorables]
          | write =>
            by_cases hd : se_symbolic a.data
            · simp [h1, h2, hma, haa, hd, explorables]
            · simp [h1, h2, hma, haa, hd, explorables]
  · exact ⟨ip_sym_state, ⟨Vulnerability.IP_OVERWRITE, by decide, by decide⟩, by decide⟩

theorem C10_violating_action_iff_explorable_witness :
    ∃ v, (_triage_crash scenario_state).1 = some v ∧ v ∈ explorables :=
  (C10_violating_action_iff_explorable.1 scenario_state).mp (by decide)

theorem coveredBy_cons (p : Nat × Nat) (L : List (Nat × Nat)) (a : Nat) :
    coveredBy (p :: L) a = true ↔ ((p.1 ≤ a ∧ a < p.1 + p.2) ∨ coveredBy L a = true) := by
  simp [coveredBy]

theorem coveredBy_iff (L : List (Nat × Nat)) (a : Nat) :
    coveredBy L a = true ↔ ∃ p ∈ L, p.1 ≤ a ∧ a < p.1 + p.2 := by
  simp [coveredBy]

theorem segmentLoop_coveredBy (ws : List Nat) :
    ∀ (s e : Nat), s < e → ws.Sorted (· ≤ ·) → (∀ w ∈ ws, s ≤ w) →
      ∀ a : Nat,
        (coveredBy (segmentLoop s e ws) a = true ↔ ((s ≤ a ∧ a < e) ∨ a ∈ ws)) := by
  induction ws with
  | nil =>
    intro s e hse _ _ a
    rw [segmentLoop, coveredBy_cons]
    simp [coveredBy]
    omega
  | cons w rest ih =>
    intro s e hse hsorted hlb a
    rw [List.sorted_cons] at hsorted
    obtain ⟨hwle, hrest⟩ := hsorted
    have hsw : s ≤ w := hlb w (List.mem_cons_self w rest)
    rw [segmentLoop]
    by_cases hew : e < w
    · rw [if_pos hew, coveredBy_cons, ih w (w + 1) (by omega) hrest hwle a]
      simp only [List.mem_cons]
      constructor
      · rintro (h | h | h)
        · left; omega
        · right; left; omega
        · right; right; exact h
      · rintro (h | h | h)
        · left; omega
        · right; left; omega
        · right; right; exact h
    · rw [if_neg hew,
        ih s (max e (w + 1)) (by omega) hrest (fun x hx => le_trans hsw (hwle x hx)) a]
      simp only [List.mem_cons]
      constructor
      · rintro (h | h)
        · by_cases haw : a = w
          · right; left; exact haw
          · left; omega
        · right; right; exact h
      · rintro (h | h | h)
        · left; omega
        · left; omega
        · right; exact h

theorem segmentLoop_struct (ws : List Nat) :
    ∀ (s e : Nat), s < e → ws.Sorted (· ≤ ·) → (∀ w ∈ ws, s ≤ w) →
      (∀ p ∈ segmentLoop s e ws, s ≤ p.1 ∧ 0 < p.2) ∧
      (segmentLoop s e ws).Pairwise (fun p q => p.1 + p.2 < q.1) := by
  induction ws with
  | nil =>
    intro s e hse _ _
    constructor
    · intro p hp
      rw [segmentLoop] at hp
      simp only [List.mem_singleton] at hp
      subst hp
      exact ⟨le_refl s, Nat.sub_pos_of_lt hse⟩
    · rw [segmentLoop]
      exact List.pairwise_singleton _ _
  | cons w rest ih =>
    intro s e hse hsorted hlb
    rw [List.sorted_cons] at hsorted
    obtain ⟨hwle, hrest⟩ := hsorted
    have hsw : s ≤ w := hlb w (List.mem_cons_self w rest)
    rw [segmentLoop]
    by_cases hew : e < w
    · rw [if_pos hew]
      have ihw := ih w (w + 1) (by omega) hrest hwle
      constructor
      · intro p hp
        rcases List.mem_cons.mp hp with rfl | hp2
        · exact ⟨le_refl s, Nat.sub_pos_of_lt hse⟩
        · exact ⟨le_trans hsw (ihw.1 p hp2).1, (ihw.1 p hp2).2⟩
      · refine List.Pairwise.cons ?_ ihw.2
        intro q hq
        have h3 := (ihw.1 q hq).1
        show s + (e - s) < q.1
        omega
    · rw [if_neg hew]
      exact ih s (max e (w + 1)) (by omega) hrest (fun x hx => le_trans hsw (hwle x hx))

theorem pairwise_mem_cases {α : Type} {R : α → α → Prop} :
    ∀ {l : List α}, l.Pairwise R → ∀ {p q : α}, p ∈ l → q ∈ l → p = q ∨ R p q ∨ R q p := by
  intro l hl
  induction hl with
  | nil =>
    intro p q hp _
    exact absurd hp (List.not_mem_nil p)
  | cons hhead _ ihp =>
    intro p q hp hq
    rcases List.mem_cons.mp hp with rfl | hp2
    · rcases List.mem_cons.mp hq with rfl | hq2
      · left; rfl
      · right; left; exact hhead q hq2
    · rcases List.mem_cons.mp hq with rfl | hq2
      · right; right; exact hhead p hp2
      · exact ihp hp2 hq2

theorem _segment_cases (l : List Nat) :
    (∀ a : Nat, coveredBy (_segment l) a = true ↔ a ∈ l) ∧
    (∀ p ∈ _segment l, 0 < p.2) ∧
    (_segment l).Pairwise (fun p q => p.1 + p.2 < q.1) := by
  have hperm : (List.insertionSort (· ≤ ·) l).Perm l := List.perm_insertionSort _ l
  have hsorted : (List.insertionSort (· ≤ ·) l).Sorted (· ≤ ·) :=
    List.sorted_insertionSort _ l
  unfold _segment segmentStart
  rcases hs : List.insertionSort (· ≤ ·) l with _ | ⟨w, rest⟩
  · rw [hs] at hperm
    have hl : l = [] := hperm.symm.eq_nil
    subst hl
    refine ⟨?_, ?_, List.Pairwise.nil⟩
    · intro a
      simp [coveredBy]
    · intro p hp
      exact absurd hp (List.not_mem_nil p)
  · rw [hs] at hperm hsorted
    rw [List.sorted_cons] at hsorted
    obtain ⟨hwle, hrest⟩ := hsorted
    have hstruct := segmentLoop_struct rest w (w + 1) (by omega) hrest hwle
    refine ⟨?_, fun p hp => (hstruct.1 p hp).2, hstruct.2⟩
    intro a
    rw [segmentLoop_coveredBy rest w (w + 1) (by omega) hrest hwle a, ← hperm.mem_iff,
      List.mem_cons]
    constructor
    · rintro (h | h)
      · left; omega
      · right; exact h
    · rintro (h | h)
      · left; omega
      · right; exact h

/-- C3: the Address-Set Coalescer covers exactly the input addresses, each
reported segment is a maximal contiguous run of input addresses (non-empty,
contained in the input, with neither neighbour of its boundary in the
input), and the three concrete instances of the spec hold. -/
theorem C3_segment_coalescer :
    (∀ (l : List Nat) (a : Nat), coveredBy (_segment l) a = true ↔ a ∈ l) ∧
    (∀ (l : List Nat), ∀ p ∈ _segment l,
        0 < p.2 ∧
        (∀ a, p.1 ≤ a → a < p.1 + p.2 → a ∈ l) ∧
        (0 < p.1 → (p.1 - 1) ∉ l) ∧
        (p.1 + p.2) ∉ l) ∧
    _segment [10, 11, 12, 20, 21, 30] = [(10, 3), (20, 2), (30, 1)] ∧
    _segment [] = [] ∧
    _segment [5] = [(5, 1)] := by
  refine ⟨fun l => (_segment_cases l).1, ?_, by decide, by decide, by decide⟩
  intro l p hp
  obtain ⟨hcov, hpos, hpw⟩ := _segment_cases l
  refine ⟨hpos p hp, ?_, ?_, ?_⟩
  · intro a ha1 ha2
    exact (hcov a).mp ((coveredBy_iff _ a).mpr ⟨p, hp, ha1, ha2⟩)
  · intro hppos hmem
    obtain ⟨q, hq, hq1, hq2⟩ := (coveredBy_iff _ _).mp ((hcov _).mpr hmem)
    rcases pairwise_mem_cases hpw hp hq with rfl | h | h
    · omega
    · omega
    · omega
  · intro hmem
    obtain ⟨q, hq, hq1, hq2⟩ := (coveredBy_iff _ _).mp ((hcov _).mpr hmem)
    rcases pairwise_mem_cases hpw hp hq with rfl | h | h
    · omega
    · omega
    · omega

theorem C3_segment_coalescer_witness : (11 : Nat) ∈ [10, 11, 12, 20, 21, 30] :=
  (C3_segment_coalescer.2.1 [10, 11, 12, 20, 21, 30] (10, 3) (by decide)).2.1 11
    (by decide) (by decide)

theorem mem_actions_typ (acts : List QAction) :
    ∀ a ∈ mem_actions acts, a.typ = ActionType.mem := by
  intro a ha
  have h := List.of_mem_filter ha
  simpa using h

theorem last_decides_cons (z : QuickVerdict) (a : QAction) (rest : List QAction) :
    last_decides z (a :: rest) = last_decides (action_verdict a) rest := by
  cases rest with
  | nil => rfl
  | cons b bs =>
    unfold last_decides
    rw [List.getLast?_cons_cons]
    cases h : (b :: bs).getLast? with
    | none =>
      exfalso
      have h2 := List.getLast?_eq_none_iff.mp h
      simp at h2
    | some x => rfl

theorem quick_scan_loop_eq_mem (perms : Nat → PermLookup) :
    ∀ (acts : List QAction) (posit : Option Vulnerability),
      quick_scan_loop perms acts posit = quick_scan_loop perms (mem_actions acts) posit := by
  intro acts
  induction acts with
  | nil => intro posit; rfl
  | cons a rest ih =>
    intro posit
    by_cases hm : a.typ = ActionType.mem
    · have hfil : mem_actions (a :: rest) = a :: mem_actions rest := by
        simp [mem_actions, hm]
      rw [hfil]
      simp only [quick_scan_loop]
      rw [if_pos hm, if_pos hm]
      by_cases ht : a.target < 0x1000
      · rw [if_pos ht, if_pos ht]
      · rw [if_neg ht, if_neg ht]
        cases ha : a.action with
        | read => exact ih _
        | write =>
          by_cases hs : a.target &&& 0xfff00000 = 0
          · rw [if_pos hs, if_pos hs]
          · rw [if_neg hs, if_neg hs]
            cases hp : perms a.target with
            | unmapped => exact ih _
            | symbolicPerms => exact ih _
            | mapped bits =>
              dsimp only
              by_cases hb : bits &&& 2 ≠ 2
              · rw [if_pos hb, if_pos hb]
              · rw [if_neg hb, if_neg hb]
                exact ih _
    · have hfil : mem_actions (a :: rest) = mem_actions rest := by
        simp [mem_actions, hm]
      rw [hfil, quick_scan_loop, if_neg hm]
      exact ih posit

theorem quick_scan_loop_no_trigger (perms : Nat → PermLookup) :
    ∀ (l : List QAction) (posit : Option Vulnerability),
      (∀ a ∈ l, a.typ = ActionType.mem) →
      (∀ a ∈ l, early_trigger perms a = false) →
      quick_scan_loop perms l posit =
        last_decides
          (match posit with
           | none => QuickVerdict.unknown
           | some v => QuickVerdict.vuln v) l := by
  intro l
  induction l with
  | nil => intro posit _ _; rfl
  | cons a rest ih =>
    intro posit hmem htrig
    have hm : a.typ = ActionType.mem := hmem a (List.mem_cons_self a rest)
    have hta := htrig a (List.mem_cons_self a rest)
    have hmem2 : ∀ b ∈ rest, b.typ = ActionType.mem :=
      fun b hb => hmem b (List.mem_cons_of_mem a hb)
    have htrig2 : ∀ b ∈ rest, early_trigger perms b = false :=
      fun b hb => htrig b (List.mem_cons_of_mem a hb)
    have hnt : ¬ a.target < 0x1000 := by
      intro hlt
      simp [early_trigger, hlt] at hta
    rw [last_decides_cons]
    simp only [quick_scan_loop]
    rw [if_pos hm, if_neg hnt]
    cases ha : a.action with
    | read =>
      rw [ih (some Vulnerability.ARBITRARY_READ) hmem2 htrig2]
      simp [action_verdict, ha]
    | write =>
      simp only [early_trigger, ha, Bool.or_eq_false_iff] at hta
      obtain ⟨h1, h2, h3⟩ := hta
      have hs : ¬ a.target &&& 0xfff00000 = 0 := by
        simpa using h2
      rw [if_neg hs]
      cases hp : perms a.target with
      | unmapped =>
        rw [ih (some Vulnerability.WRITE_WHAT_WHERE) hmem2 htrig2]
        simp [action_verdict, ha]
      | symbolicPerms =>
        rw [ih (some Vulnerability.WRITE_WHAT_WHERE) hmem2 htrig2]
        simp [action_verdict, ha]
      | mapped bits =>
        rw [hp] at h3
        have hb : ¬ bits &&& 2 ≠ 2 := by
          simpa using h3
        dsimp only
        rw [if_neg hb]
        rw [ih (some Vulnerability.WRITE_WHAT_WHERE) hmem2 htrig2]
        simp [action_verdict, ha]

theorem quick_scan_loop_first_trigger (perms : Nat → PermLookup) :
    ∀ (l1 : List QAction) (a : QAction) (l2 : List QAction) (posit : Option Vulnerability),
      (∀ b ∈ l1, b.typ = ActionType.mem) →
      (∀ b ∈ l1, early_trigger perms b = false) →
      a.typ = ActionType.mem →
      early_trigger perms a = true →
      quick_scan_loop perms (l1 ++ a :: l2) posit = early_verdict a := by
  intro l1
  induction l1 with
  | nil =>
    intro a l2 posit _ _ hm hta
    simp only [List.nil_append, quick_scan_loop]
    rw [if_pos hm]
    by_cases ht : a.target < 0x1000
    · rw [if_pos ht]
      simp [early_verdict, ht]
    · rw [if_neg ht]
      have hev : early_verdict a = QuickVerdict.vuln Vulnerability.UNCONTROLLED_WRITE := by
        simp [early_verdict, ht]
      rw [hev]
      cases ha : a.action with
      | read =>
        exfalso
        simp [early_trigger, ha, ht] at hta
      | write =>
        by_cases hs : a.target &&& 0xfff00000 = 0
        · rw [if_pos hs]
        · rw [if_neg hs]
          cases hp : perms a.target with
          | unmapped =>
            exfalso
            simp [early_trigger, ha, ht, hs, hp] at hta
          | symbolicPerms =>
            exfalso
            simp [early_trigger, ha, ht, hs, hp] at hta
          | mapped bits =>
            dsimp only
            by_cases hb : bits &&& 2 ≠ 2
            · rw [if_pos hb]
            · exfalso
              simp [early_trigger, ha, ht, hs, hp, hb] at hta
  | cons b l1x ih =>
    intro a l2 posit hmem htrig hm hta
    have hbm : b.typ = ActionType.mem := hmem b (List.mem_cons_self b l1x)
    have hbt := htrig b (List.mem_cons_self b l1x)
    have hmem2 : ∀ c ∈ l1x, c.typ = ActionType.mem :=
      fun c hc => hmem c (List.mem_cons_of_mem b hc)
    have htrig2 : ∀ c ∈ l1x, early_trigger perms c = false :=
      fun c hc => htrig c (List.mem_cons_of_mem b hc)
    have hnt : ¬ b.target < 0x1000 := by
      intro hlt
      simp [early_trigger, hlt] at hbt
    simp only [List.cons_append, quick_scan_loop]
    rw [if_pos hbm, if_neg hnt]
    cases hba : b.action with
    | read => exact ih a l2 _ hmem2 htrig2 hm hta
    | write =>
      simp only [early_trigger, hba, Bool.or_eq_false_iff] at hbt
      obtain ⟨h1, h2, h3⟩ := hbt
      have hs : ¬ b.target &&& 0xfff00000 = 0 := by
        simpa using h2
      rw [if_neg hs]
      cases hp : perms b.target with
      | unmapped => exact ih a l2 _ hmem2 htrig2 hm hta
      | symbolicPerms => exact ih a l2 _ hmem2 htrig2 hm hta
      | mapped bits =>
        rw [hp] at h3
        have hb2 : ¬ bits &&& 2 ≠ 2 := by
          simpa using h3
        dsimp only
        rw [if_neg hb2]
        exact ih a l2 _ hmem2 htrig2 hm hta

/-- C8 counterexample: the claim says the LAST memory access of the single
stepped instruction decides the verdict, but for an instruction whose first
access is a read at 0x500 and whose last is a write to the mapped writable
address 0x48000000 the code returns NULL_DEREFERENCE at the first access,
while the last-access reading would give WRITE_WHAT_WHERE. -/
theorem C8_last_access_counterexample :
    quick_scan C8_perms C8_acts = QuickVerdict.vuln Vulnerability.NULL_DEREFERENCE ∧
    quick_scan_claim C8_perms C8_acts = QuickVerdict.vuln Vulnerability.WRITE_WHAT_WHERE ∧
    quick_scan C8_perms C8_acts ≠ quick_scan_claim C8_perms C8_acts := by
  decide

/-- C8 amended: in the mapped-and-executable branch, the memory accesses of
the single stepped instruction are scanned in order; the FIRST access with
target below 0x1000 returns NULL_DEREFERENCE immediately, the FIRST write at
a suspiciously small or read-only mapped target returns UNCONTROLLED_WRITE
immediately (an unmapped write target does not); if no access triggers such
an early return, the kind of the LAST access decides (write WRITE_WHAT_WHERE,
read ARBITRARY_READ), and with no memory access at all the verdict is the
sentinel 'unknown', not an error. -/
theorem C8_quick_scan_decision (perms : Nat → PermLookup) (acts : List QAction) :
    (mem_actions acts = [] → quick_scan perms acts = QuickVerdict.unknown) ∧
    ((∀ a ∈ mem_actions acts, early_trigger perms a = false) →
      quick_scan perms acts = last_decides QuickVerdict.unknown (mem_actions acts)) ∧
    (∀ l1 a l2, mem_actions acts = l1 ++ a :: l2 →
      (∀ b ∈ l1, early_trigger perms b = false) →
      early_trigger perms a = true →
      quick_scan perms acts = early_verdict a) := by
  refine ⟨?_, ?_, ?_⟩
  · intro hnil
    rw [quick_scan, quick_scan_loop_eq_mem perms acts none, hnil]
    rfl
  · intro htrig
    rw [quick_scan, quick_scan_loop_eq_mem perms acts none]
    exact quick_scan_loop_no_trigger perms (mem_actions acts) none (mem_actions_typ acts) htrig
  · intro l1 a l2 heq htrig hta
    rw [quick_scan, quick_scan_loop_eq_mem perms acts none, heq]
    have hsub : ∀ b ∈ l1, b.typ = ActionType.mem := by
      intro b hb
      refine mem_actions_typ acts b ?_
      rw [heq]
      exact List.mem_append_left _ hb
    have ham : a.typ = ActionType.mem := by
      refine mem_actions_typ acts a ?_
      rw [heq]
      exact List.mem_append_right _ (List.mem_cons_self a l2)
    exact quick_scan_loop_first_trigger perms l1 a l2 none hsub htrig ham hta

theorem C8_quick_scan_decision_witness :
    quick_scan (fun _ => PermLookup.unmapped) [] = QuickVerdict.unknown :=
  (C8_quick_scan_decision (fun _ => PermLookup.unmapped) []).1 rfl

end Rex
